import Mathlib

/-!
Verification of the memory-ranking and context-assembly core of the
`coda-agent` repository, shallowly embedded from
`src/services/memory/src/services/ranking.py` and
`src/services/memory/src/services/context_assembly.py`.

Modelling conventions:

* Python `float` arithmetic is modelled over `ℚ` (every Python float value
  is a rational number); the two transcendental library calls are treated
  specially:
  - `math.sqrt` (used only inside `_cosine_similarity`) is abstracted as an
    explicit function parameter `fsqrt : ℚ → ℚ`; every structural theorem
    below holds for an arbitrary `fsqrt`, and the claims that need facts
    about square roots state them as hypotheses that the real `math.sqrt`
    satisfies (`sqrt 0 = 0`).
  - `math.exp` / `math.log` (used only inside `temporal_decay`) are modelled
    with `Real.exp` / `Real.log`, since the claims about the decay curve are
    analytic; where `temporal_decay`'s value feeds into the (purely
    structural) score combination, the decay function is abstracted as a
    parameter `decayFn : ℚ → ℚ`.
* Python dictionaries holding memory records become structures; a field read
  with `dict.get(key, default)` becomes an `Option` field read with `getD`.
* Python's `round(x, 4)` rounds half-to-even; Mathlib's `round` rounds half
  up.  No claim below depends on tie behaviour (both sides of every equation
  use the same rounding, and rounding is monotone either way), so we use
  Mathlib's `round`.
* `list.sort(key=..., reverse=True)` is a stable sort; any two stable sorts
  by the same key agree, so it is modelled by stable insertion sort with the
  descending-score relation.
-/

open List

namespace Coda

/-- One search-result record as consumed by `ranking.py` (`dict[str, Any]`).
Fields read with `.get(key, default)` in the source are `Option`s here;
`relevance_score` is written by `rank_results` and read by `mmr_rerank`. -/
structure MemRec where
  cosine_similarity : Option ℚ
  importance : Option ℚ
  created_at : ℚ
  access_count : Option ℤ
  relevance_score : ℚ
  embedding : Option (List ℚ)

/-- `access_bonus(access_count)`: `min(0.1, access_count * 0.01)`. -/
def access_bonus (access_count : ℤ) : ℚ :=
  min 0.1 ((access_count : ℚ) * 0.01)

/-- Python's `round(x, 4)`: round `x` to four decimal places. -/
def round4 (x : ℚ) : ℚ :=
  ((round (x * 10000) : ℤ) : ℚ) / 10000

/-- `combined_relevance(cosine_similarity, importance, created_at,
access_count)` from `ranking.py`: the weighted sum, clamped into
`[0, 1]` and rounded to 4 decimal places, in that order.  The value the
source obtains from `temporal_decay(created_at)` is supplied by the
abstract parameter `decayFn`. -/
def combined_relevance (decayFn : ℚ → ℚ) (cosine_similarity importance : ℚ)
    (created_at : ℚ) (access_count : ℤ) : ℚ :=
  round4 (min 1 (max 0
    (0.60 * cosine_similarity
      + 0.25 * importance
      + 0.10 * decayFn created_at
      + 0.05 * access_bonus access_count)))

/-- The body of the `for r in results` loop of `rank_results`: store the
combined relevance (with the source's `.get` defaults) in the record. -/
def scoreRec (decayFn : ℚ → ℚ) (r : MemRec) : MemRec :=
  { r with
    relevance_score :=
      combined_relevance decayFn (r.cosine_similarity.getD 0)
        (r.importance.getD 0.5) r.created_at (r.access_count.getD 0) }

/-- The sort relation of `results.sort(key=lambda r: r["relevance_score"],
reverse=True)`: descending by relevance score. -/
def scoreDesc (a b : MemRec) : Prop :=
  b.relevance_score ≤ a.relevance_score

instance : DecidableRel scoreDesc := fun a b =>
  inferInstanceAs (Decidable (b.relevance_score ≤ a.relevance_score))

instance : IsTotal MemRec scoreDesc :=
  ⟨fun a b => le_total b.relevance_score a.relevance_score⟩

instance : IsTrans MemRec scoreDesc :=
  ⟨fun _ _ _ h1 h2 => le_trans h2 h1⟩

/-- `rank_results`: score every record, then stable-sort descending by
`relevance_score` (Python `list.sort` is stable; stable insertion sort
computes the same list). -/
def rank_results (decayFn : ℚ → ℚ) (results : List MemRec) : List MemRec :=
  List.insertionSort scoreDesc (results.map (scoreRec decayFn))

/-- `_cosine_similarity(a, b)` from `ranking.py`, with `math.sqrt`
abstracted as `fsqrt`: `0.0` for unequal lengths, `0.0` when either norm is
zero, otherwise `dot / (norm_a * norm_b)`. -/
def _cosine_similarity (fsqrt : ℚ → ℚ) (a b : List ℚ) : ℚ :=
  if a.length ≠ b.length then 0
  else
    let dot := (List.zipWith (· * ·) a b).sum
    let norm_a := fsqrt (a.map (fun x => x * x)).sum
    let norm_b := fsqrt (b.map (fun x => x * x)).sum
    if norm_a = 0 ∨ norm_b = 0 then 0
    else dot / (norm_a * norm_b)

/-- `max(_cosine_similarity(emb, s_emb) for s_emb in selected_embeddings)`
when `selected_embeddings` is non-empty, else the source's explicit `0.0`. -/
def maxSimTo (fsqrt : ℚ → ℚ) (selEmbs : List (List ℚ)) (emb : List ℚ) : ℚ :=
  match selEmbs with
  | [] => 0
  | e :: rest =>
      rest.foldl (fun acc s => max acc (_cosine_similarity fsqrt emb s))
        (_cosine_similarity fsqrt emb e)

/-- `mmr_score = lambda_mmr * relevance - (1 - lambda_mmr) * max_sim` for one
candidate, against the embeddings selected so far. -/
def mmrScore (fsqrt : ℚ → ℚ) (lam : ℚ) (selEmbs : List (List ℚ))
    (c : MemRec) : ℚ :=
  lam * c.relevance_score
    - (1 - lam) * maxSimTo fsqrt selEmbs (c.embedding.getD [])

/-- The inner `for i, candidate in enumerate(candidates)` scan of
`mmr_rerank`: `i` is the index of the next element, `bi`/`bs` are
`best_idx`/`best_score`, updated exactly when `mmr_score > best_score`. -/
def scanBest {α : Type} (f : α → ℚ) : List α → ℕ → ℕ → ℚ → ℕ × ℚ
  | [], _, bi, bs => (bi, bs)
  | c :: rest, i, bi, bs =>
      if bs < f c then scanBest f rest (i + 1) i (f c)
      else scanBest f rest (i + 1) bi bs

/-- `best_idx` after the scan.  The source initialises `best_score` to
`float("-inf")`, so the first candidate always replaces it; over `ℚ` (which
has no `-inf`) this is the same as starting the scan at the first element
with index `0` as the incumbent. -/
def bestIndex {α : Type} (f : α → ℚ) : List α → ℕ
  | [] => 0
  | c :: rest => (scanBest f rest 1 0 (f c)).1

/-- The `while len(selected) < top_n and candidates` loop of `mmr_rerank`:
`fuel` is `top_n - len(selected)`; each round pops the best-scoring
candidate (`candidates.pop(best_idx)`) and appends its embedding to
`selected_embeddings`. -/
def mmrLoop (fsqrt : ℚ → ℚ) (lam : ℚ) :
    ℕ → List MemRec → List (List ℚ) → List MemRec
  | 0, _, _ => []
  | _ + 1, [], _ => []
  | fuel + 1, c :: cs, selEmbs =>
      let bi := bestIndex (mmrScore fsqrt lam selEmbs) (c :: cs)
      let chosen := (c :: cs).getD bi c
      chosen :: mmrLoop fsqrt lam fuel ((c :: cs).eraseIdx bi)
        (selEmbs ++ [chosen.embedding.getD []])

/-- The same selection loop with the score function specialised to the bare
relevance score; it never looks at an embedding.  Used to state that
`lambda_mmr = 1` degenerates to pure-relevance selection. -/
def relevanceLoop : ℕ → List MemRec → List MemRec
  | 0, _ => []
  | _ + 1, [] => []
  | fuel + 1, c :: cs =>
      let bi := bestIndex (fun r : MemRec => r.relevance_score) (c :: cs)
      (c :: cs).getD bi c :: relevanceLoop fuel ((c :: cs).eraseIdx bi)

/-- `mmr_rerank(results, top_n, lambda_mmr)` from `ranking.py`.  The
`no_embed.take (top_n - selected.length)` tail models
`remaining_slots = top_n - len(selected)` followed by
`selected.extend(no_embed[:remaining_slots])` (a no-op when
`remaining_slots ≤ 0`, exactly as truncated ℕ-subtraction gives `take 0`). -/
def mmr_rerank (fsqrt : ℚ → ℚ) (results : List MemRec) (top_n : ℕ)
    (lambda_mmr : ℚ) : List MemRec :=
  if results.isEmpty then []
  else
    let candidates := results.filter (fun r => r.embedding.isSome)
    let no_embed := results.filter (fun r => !r.embedding.isSome)
    if candidates.isEmpty then results.take top_n
    else
      let selected := mmrLoop fsqrt lambda_mmr top_n candidates []
      selected ++ no_embed.take (top_n - selected.length)

/-! Temporal decay, over `ℝ`.  `_DECAY_LAMBDA = math.log(2) / 30.0`; the
timestamps `now` and `created_at` are in seconds, so
`(now - created_at).total_seconds() / 86400` is `(now - created_at) / 86400`. -/

/-- `_DECAY_LAMBDA = math.log(2) / 30.0`. -/
noncomputable def _DECAY_LAMBDA : ℝ := Real.log 2 / 30

/-- `temporal_decay(created_at)` from `ranking.py`, with the wall clock
`now` made explicit: `exp(-λ * max(0, (now - created_at)/86400))`. -/
noncomputable def temporal_decay (now created_at : ℝ) : ℝ :=
  Real.exp (-_DECAY_LAMBDA * max 0 ((now - created_at) / 86400))

/-! Context assembly, from `context_assembly.py`. -/

/-- One ranked memory record as consumed by `assemble_context`.  `content`
is read unconditionally (`result["content"]`); `content_type` defaults to
`"unknown"` and `tags` to `[]` via `.get`, and Python's `if tags:` treats a
missing and an empty tag list identically, so `tags` is a bare list. -/
structure CtxRec where
  content : String
  content_type : Option String
  tags : List String

/-- `estimate_tokens(text)`: `max(1, len(text) // 4)`. -/
def estimate_tokens (text : String) : ℕ :=
  max 1 (text.length / 4)

/-- `tag_str = f" [{', '.join(tags)}]" if tags else ""`. -/
def tagStr (tags : List String) : String :=
  if tags.isEmpty then "" else " [" ++ ", ".intercalate tags ++ "]"

/-- `block = f"[{content_type}{tag_str}] {content}"` — the string whose
token cost the budget loop charges (it does not carry the `"- "` bullet). -/
def formatBlock (r : CtxRec) : String :=
  "[" ++ r.content_type.getD "unknown" ++ tagStr r.tags ++ "] " ++ r.content

/-- `f"- [{content_type}{tag_str}] {r['content']}"` — one output line, as
rebuilt in the second loop of `assemble_context`; it is the block with the
`"- "` bullet prefixed. -/
def formatLine (r : CtxRec) : String :=
  "- " ++ formatBlock r

/-- The first loop of `assemble_context`: walk the ranked list keeping a
running token total, `break` on the first record whose block would push the
total past `max_tokens`; returns the selected records and the final total. -/
def selectLoop (max_tokens : ℕ) : List CtxRec → ℕ → List CtxRec × ℕ
  | [], total => ([], total)
  | r :: rest, total =>
      let block_tokens := estimate_tokens (formatBlock r)
      if max_tokens < total + block_tokens then ([], total)
      else
        let out := selectLoop max_tokens rest (total + block_tokens)
        (r :: out.1, out.2)

/-- The dictionary returned by `assemble_context`. -/
structure AssembledContext where
  context : String
  memory_count : ℕ
  total_tokens_estimate : ℕ

/-- `assemble_context(ranked_results, max_tokens)` from
`context_assembly.py`: greedily select records within the token budget, then
join their formatted lines with single newlines (the source returns the
explicit empty dictionary when nothing was selected). -/
def assemble_context (ranked_results : List CtxRec) (max_tokens : ℕ) :
    AssembledContext :=
  let sel := selectLoop max_tokens ranked_results 0
  if sel.1.isEmpty then ⟨"", 0, 0⟩
  else ⟨String.intercalate "\n" (sel.1.map formatLine), sel.1.length, sel.2⟩

/-! Spec-side definitions, written from the specification's words, to be
compared with the source-derived definitions above. -/

/-- The spec's `clamp(x, lo, hi)`. -/
def spec_clamp (lo hi x : ℚ) : ℚ := min hi (max lo x)

/-- The spec's relevance formula: `round(clamp(0.60*s + 0.25*m +
0.10*temporal_decay(t) + 0.05*min(0.1, n*0.01), 0.0, 1.0), 4 dp)`, with the
decay value supplied by `decayFn`. -/
def spec_relevance_score (decayFn : ℚ → ℚ) (s m t : ℚ) (n : ℤ) : ℚ :=
  round4 (spec_clamp 0 1
    (0.60 * s + 0.25 * m + 0.10 * decayFn t + 0.05 * min 0.1 ((n : ℚ) * 0.01)))

/-- The rendering format as the spec states it: `- [<content_type> [<tag1>,
<tag2>, ...]] <content>` when tags are present, `- [<content_type>]
<content>` when tags are empty. -/
def spec_line (r : CtxRec) : String :=
  if r.tags = [] then
    "- [" ++ r.content_type.getD "unknown" ++ "] " ++ r.content
  else
    "- [" ++ r.content_type.getD "unknown" ++ " ["
      ++ ", ".intercalate r.tags ++ "]] " ++ r.content

/-! Helper lemmas: fusing adjacent string literals. -/

lemma cat_dash_bracket (s : String) : "- " ++ ("[" ++ s) = "- [" ++ s := by
  rw [← String.append_assoc]; rfl

lemma cat_brackets (s : String) : "]" ++ ("] " ++ s) = "]] " ++ s := by
  rw [← String.append_assoc]; rfl

lemma cat_unknown (s : String) :
    "- [" ++ ("unknown" ++ ("] " ++ s)) = "- [unknown] " ++ s := by
  rw [← String.append_assoc, ← String.append_assoc]; rfl

lemma cat_dash_unknown (s : String) :
    "- " ++ ("[unknown] " ++ s) = "- [unknown] " ++ s := by
  rw [← String.append_assoc]; rfl

/-- The line built by `assemble_context`'s output loop coincides with the
spec's rendering format, in both tag cases. -/
lemma formatLine_eq_spec_line (r : CtxRec) : formatLine r = spec_line r := by
  unfold formatLine formatBlock tagStr spec_line
  by_cases h : r.tags = []
  · simp [h, String.append_assoc, cat_dash_bracket]
  · simp [h, String.append_assoc, cat_dash_bracket, cat_brackets]

lemma formatLine_funext : formatLine = spec_line :=
  funext formatLine_eq_spec_line

/-! Lemmas about the token-budget selection loop. -/

/-- The total returned by the loop is the starting total plus the token
estimates of the selected blocks. -/
lemma selectLoop_total (max_tokens : ℕ) :
    ∀ (l : List CtxRec) (total : ℕ),
      (selectLoop max_tokens l total).2
        = total + ((selectLoop max_tokens l total).1.map
            (fun r => estimate_tokens (formatBlock r))).sum := by
  intro l
  induction l with
  | nil => intro total; simp [selectLoop]
  | cons r rest ih =>
      intro total
      by_cases h : max_tokens < total + estimate_tokens (formatBlock r)
      · simp [selectLoop, h]
      · simp only [selectLoop, if_neg h, List.map_cons, List.sum_cons]
        rw [ih]
        omega

/-- The loop never pushes the running total past the budget. -/
lemma selectLoop_le (max_tokens : ℕ) :
    ∀ (l : List CtxRec) (total : ℕ), total ≤ max_tokens →
      (selectLoop max_tokens l total).2 ≤ max_tokens := by
  intro l
  induction l with
  | nil => intro total ht; simpa [selectLoop] using ht
  | cons r rest ih =>
      intro total ht
      by_cases h : max_tokens < total + estimate_tokens (formatBlock r)
      · simpa [selectLoop, h] using ht
      · simp only [selectLoop, if_neg h]
        exact ih _ (by omega)

/-- The selection is a prefix of the input, and when something is left over
the first leftover record is one whose block does not fit. -/
lemma selectLoop_split (max_tokens : ℕ) :
    ∀ (l : List CtxRec) (total : ℕ),
      ∃ rest, l = (selectLoop max_tokens l total).1 ++ rest
        ∧ ∀ r rs, rest = r :: rs →
            max_tokens < (selectLoop max_tokens l total).2
              + estimate_tokens (formatBlock r) := by
  intro l
  induction l with
  | nil =>
      intro total
      exact ⟨[], by simp [selectLoop], fun r rs hr => by simp at hr⟩
  | cons r rest ih =>
      intro total
      by_cases h : max_tokens < total + estimate_tokens (formatBlock r)
      · refine ⟨r :: rest, by simp [selectLoop, h], ?_⟩
        intro r' rs' hr'
        injection hr' with h1 h2
        subst h1
        simp [selectLoop, h]
      · obtain ⟨tail, htail, hfit⟩ :=
          ih (total + estimate_tokens (formatBlock r))
        refine ⟨tail, ?_, ?_⟩
        · simp only [selectLoop, if_neg h]
          simpa using congrArg (r :: ·) htail
        · intro r' rs' hr'
          simpa only [selectLoop, if_neg h] using hfit r' rs' hr'

/-! Claim theorems for context assembly. -/

/-- C3: for every input list and every `max_tokens > 0`, the
`total_tokens_estimate` returned by `assemble_context` never exceeds
`max_tokens`, the selected records are a prefix of the input (so no later
candidate is included once one fails to fit), and whenever a candidate is
left over, the first leftover's block cost added to the running total would
exceed the budget (first-fit-then-stop). -/
theorem assemble_context_budget (ranked : List CtxRec) (max_tokens : ℕ)
    (_hpos : 0 < max_tokens) :
    (assemble_context ranked max_tokens).total_tokens_estimate ≤ max_tokens
    ∧ ∃ rest, ranked = (selectLoop max_tokens ranked 0).1 ++ rest
        ∧ ∀ r rs, rest = r :: rs →
            max_tokens < (selectLoop max_tokens ranked 0).2
              + estimate_tokens (formatBlock r) := by
  refine ⟨?_, selectLoop_split max_tokens ranked 0⟩
  have hle := selectLoop_le max_tokens ranked 0 (Nat.zero_le _)
  unfold assemble_context
  by_cases h : (selectLoop max_tokens ranked 0).1.isEmpty
  · simp [h]
  · simpa [h] using hle

/-- C3 witness: a concrete instance of `assemble_context_budget`. -/
theorem assemble_context_budget_witness :
    0 < 10
    ∧ ((assemble_context [⟨"hello world", none, []⟩] 10).total_tokens_estimate
          ≤ 10
        ∧ ∃ rest, [(⟨"hello world", none, []⟩ : CtxRec)]
              = (selectLoop 10 [⟨"hello world", none, []⟩] 0).1 ++ rest
            ∧ ∀ r rs, rest = r :: rs →
                10 < (selectLoop 10 [⟨"hello world", none, []⟩] 0).2
                  + estimate_tokens (formatBlock r)) :=
  ⟨by decide, assemble_context_budget [⟨"hello world", none, []⟩] 10
    (by decide)⟩

/-- C4: the assembled `context` is the newline-join (no trailing newline) of
the spec-format lines of the selected records — `- [<content_type> [<tags>]]
<content>` with tags, `- [<content_type>] <content>` without — and the
returned `total_tokens_estimate` is the sum of `estimate_tokens` applied to
each selected record's formatted block, where `estimate_tokens(s) =
max(1, floor(len(s) / 4))`. -/
theorem assemble_context_format (ranked : List CtxRec) (max_tokens : ℕ) :
    (assemble_context ranked max_tokens).context
      = String.intercalate "\n" ((selectLoop max_tokens ranked 0).1.map
          spec_line)
    ∧ (assemble_context ranked max_tokens).total_tokens_estimate
      = ((selectLoop max_tokens ranked 0).1.map
          (fun r => estimate_tokens (formatBlock r))).sum
    ∧ ∀ s : String, estimate_tokens s = max 1 (s.length / 4) := by
  have ht := selectLoop_total max_tokens ranked 0
  refine ⟨?_, ?_, fun s => rfl⟩
  · unfold assemble_context
    by_cases h : (selectLoop max_tokens ranked 0).1.isEmpty
    · rw [List.isEmpty_iff] at h
      simp [List.isEmpty_iff, h]
      rfl
    · simp [h, formatLine_funext]
  · unfold assemble_context
    by_cases h : (selectLoop max_tokens ranked 0).1.isEmpty
    · rw [List.isEmpty_iff] at h
      simp [List.isEmpty_iff, h]
    · simpa [h] using ht

/-- C10: `assemble_context` needs nothing but `content` from a record: a
missing `content_type` renders as the literal placeholder `unknown`, and an
absent or empty tag list contributes no tag bracket section, in both the
token-charged block and the rendered line. -/
theorem assemble_context_optional_fields (r : CtxRec) :
    (r.content_type = none →
      formatBlock r = "[unknown" ++ (tagStr r.tags ++ ("] " ++ r.content)))
    ∧ (r.tags = [] →
      formatLine r = "- [" ++ (r.content_type.getD "unknown" ++ ("] "
        ++ r.content)))
    ∧ (r.content_type = none → r.tags = [] →
      formatLine r = "- [unknown] " ++ r.content) := by
  refine ⟨?_, ?_, ?_⟩
  · intro hct
    simp [formatBlock, hct, String.append_assoc]
  · intro hts
    simp [formatLine, formatBlock, tagStr, hts, String.append_assoc,
      cat_dash_bracket]
  · intro hct hts
    simp [formatLine, formatBlock, tagStr, hct, hts, String.append_assoc,
      cat_dash_bracket, cat_unknown, cat_dash_unknown]

/-- C10 witness: a concrete record carrying only content. -/
theorem assemble_context_optional_fields_witness :
    formatBlock ⟨"note text", none, []⟩
        = "[unknown" ++ (tagStr [] ++ ("] " ++ "note text"))
    ∧ formatLine ⟨"note text", none, []⟩ = "- [unknown] " ++ "note text" :=
  ⟨(assemble_context_optional_fields ⟨"note text", none, []⟩).1 rfl,
    (assemble_context_optional_fields ⟨"note text", none, []⟩).2.2 rfl rfl⟩

/-! Claim theorems for the relevance formula. -/

/-- `round` on `ℚ` is monotone. -/
lemma round_mono_q {x y : ℚ} (h : x ≤ y) : round x ≤ round y := by
  rw [round_eq, round_eq]
  exact Int.floor_le_floor (by linarith)

/-- Rounding to 4 decimal places maps `[0, 1]` into `[0, 1]`. -/
lemma round4_bounds (x : ℚ) (h0 : 0 ≤ x) (h1 : x ≤ 1) :
    0 ≤ round4 x ∧ round4 x ≤ 1 := by
  unfold round4
  have hz0 : (0 : ℤ) ≤ round (x * 10000) := by
    have := round_mono_q (show (0 : ℚ) ≤ x * 10000 by nlinarith)
    simpa using this
  have hz1 : round (x * 10000) ≤ 10000 := by
    have := round_mono_q (show x * 10000 ≤ ((10000 : ℤ) : ℚ) by push_cast; nlinarith)
    simpa [round_intCast] using this
  constructor
  · positivity
  · rw [div_le_one (by norm_num)]
    exact_mod_cast hz1

/-- C1: `combined_relevance` equals the spec's
`round(clamp(0.60*s + 0.25*m + 0.10*decay + 0.05*min(0.1, n*0.01), 0, 1), 4)`
— clamping and rounding applied once, at the end — and its value always lies
in `[0, 1]`, for every decay function, similarity (negative included),
importance and access count `n ≥ 0`. -/
theorem combined_relevance_spec (decayFn : ℚ → ℚ) (s m t : ℚ) (n : ℤ)
    (_hn : 0 ≤ n) :
    combined_relevance decayFn s m t n = spec_relevance_score decayFn s m t n
    ∧ 0 ≤ combined_relevance decayFn s m t n
    ∧ combined_relevance decayFn s m t n ≤ 1 := by
  refine ⟨rfl, ?_, ?_⟩ <;>
  · unfold combined_relevance
    have hb := round4_bounds (min 1 (max 0
      (0.60 * s + 0.25 * m + 0.10 * decayFn t + 0.05 * access_bonus n)))
      (le_min (by norm_num) (le_max_left 0 _)) (min_le_left 1 _)
    first
    | exact hb.1
    | exact hb.2

/-- C1 witness: saturated inputs (similarity 1, importance 1, large access
count) at a concrete decay value. -/
theorem combined_relevance_spec_witness :
    (0 : ℤ) ≤ 50
    ∧ (combined_relevance (fun _ => 1) 1 1 0 50
          = spec_relevance_score (fun _ => 1) 1 1 0 50
        ∧ 0 ≤ combined_relevance (fun _ => 1) 1 1 0 50
        ∧ combined_relevance (fun _ => 1) 1 1 0 50 ≤ 1) :=
  ⟨by decide, combined_relevance_spec (fun _ => 1) 1 1 0 50 (by decide)⟩

/-! Claim theorems for `rank_results`: stable descending sort. -/

/-- Inserting a record into a list moves it past exactly the records of
strictly greater score, so the records of any fixed score value keep their
relative order. -/
lemma filter_score_orderedInsert (v : ℚ) (a : MemRec) (l : List MemRec) :
    (List.orderedInsert scoreDesc a l).filter
        (fun r => decide (r.relevance_score = v))
      = if a.relevance_score = v
          then a :: l.filter (fun r => decide (r.relevance_score = v))
          else l.filter (fun r => decide (r.relevance_score = v)) := by
  induction l with
  | nil => by_cases h : a.relevance_score = v <;> simp [List.orderedInsert, h]
  | cons b t ih =>
      by_cases hab : scoreDesc a b
      · by_cases h : a.relevance_score = v <;>
          simp [List.orderedInsert, hab, h, List.filter_cons]
      · have hlt : a.relevance_score < b.relevance_score := by
          unfold scoreDesc at hab
          exact not_le.mp hab
        by_cases h : a.relevance_score = v
        · have hb : b.relevance_score ≠ v := by
            rw [← h]
            exact ne_of_gt hlt
          simp [List.orderedInsert, hab, List.filter_cons, hb, h, ih]
        · simp [List.orderedInsert, hab, List.filter_cons, h, ih]

/-- Stability of the insertion sort used to model `list.sort`: filtering the
sorted output at any fixed score value yields the same subsequence as
filtering the input. -/
lemma filter_score_insertionSort (v : ℚ) (l : List MemRec) :
    (List.insertionSort scoreDesc l).filter
        (fun r => decide (r.relevance_score = v))
      = l.filter (fun r => decide (r.relevance_score = v)) := by
  induction l with
  | nil => rfl
  | cons a t ih =>
      show (List.orderedInsert scoreDesc a
          (List.insertionSort scoreDesc t)).filter _ = _
      rw [filter_score_orderedInsert]
      by_cases h : a.relevance_score = v <;> simp [h, ih, List.filter_cons]

/-- C6: `rank_results` returns the scored candidates sorted by
`relevance_score` descending, as a permutation of the scored input, and the
sort is stable: for every score value, the records carrying that score
appear in the same relative order as in the input. -/
theorem rank_results_sorted_stable (decayFn : ℚ → ℚ)
    (results : List MemRec) :
    List.Sorted scoreDesc (rank_results decayFn results)
    ∧ List.Perm (rank_results decayFn results)
        (results.map (scoreRec decayFn))
    ∧ ∀ v : ℚ,
        (rank_results decayFn results).filter
            (fun r => decide (r.relevance_score = v))
          = (results.map (scoreRec decayFn)).filter
              (fun r => decide (r.relevance_score = v)) :=
  ⟨List.sorted_insertionSort scoreDesc _,
    List.perm_insertionSort scoreDesc _,
    fun v => filter_score_insertionSort v _⟩

/-! Claim theorems for `temporal_decay`. -/

/-- C5: `temporal_decay` is `exp(-ln(2)/30 * age_days)` with
`age_days = max(0, (now - t)/86400)`; it is 1 at age 0, exactly 1 (never
more) for future timestamps, at most 1 always, exactly 1/2 at age 30 days,
strictly positive, and strictly decreasing as the (non-negative) age grows. -/
theorem temporal_decay_spec (now t t1 t2 : ℝ) :
    temporal_decay now t
        = Real.exp (-(Real.log 2 / 30) * max 0 ((now - t) / 86400))
    ∧ (t = now → temporal_decay now t = 1)
    ∧ (now ≤ t → temporal_decay now t = 1)
    ∧ temporal_decay now t ≤ 1
    ∧ (now - t = 30 * 86400 → temporal_decay now t = 1 / 2)
    ∧ 0 < temporal_decay now t
    ∧ (0 ≤ now - t2 → now - t2 < now - t1 →
        temporal_decay now t1 < temporal_decay now t2) := by
  have hlam : 0 < Real.log 2 / 30 :=
    div_pos (Real.log_pos (by norm_num)) (by norm_num)
  refine ⟨rfl, ?_, ?_, ?_, ?_, Real.exp_pos _, ?_⟩
  · intro h
    subst h
    simp [temporal_decay]
  · intro h
    have hage : (now - t) / 86400 ≤ 0 :=
      div_nonpos_of_nonpos_of_nonneg (by linarith) (by norm_num)
    simp [temporal_decay, max_eq_left hage]
  · have hz : -_DECAY_LAMBDA * max 0 ((now - t) / 86400) ≤ 0 := by
      have h1 : 0 ≤ _DECAY_LAMBDA := le_of_lt hlam
      have h2 : 0 ≤ max 0 ((now - t) / 86400) := le_max_left 0 _
      nlinarith
    calc temporal_decay now t ≤ Real.exp 0 := Real.exp_le_exp.mpr hz
      _ = 1 := Real.exp_zero
  · intro h
    have hage : (now - t) / 86400 = 30 := by rw [h]; norm_num
    unfold temporal_decay _DECAY_LAMBDA
    rw [hage, max_eq_right (by norm_num : (0 : ℝ) ≤ 30),
      show -(Real.log 2 / 30) * 30 = -Real.log 2 by ring,
      Real.exp_neg, Real.exp_log (by norm_num : (0 : ℝ) < 2)]
    norm_num
  · intro h2 hlt
    have ha2 : 0 ≤ (now - t2) / 86400 := by positivity
    have ha12 : (now - t2) / 86400 < (now - t1) / 86400 := by
      apply div_lt_div_of_pos_right hlt
      norm_num
    have ha1 : 0 ≤ (now - t1) / 86400 := le_of_lt (lt_of_le_of_lt ha2 ha12)
    unfold temporal_decay
    rw [max_eq_right ha1, max_eq_right ha2]
    apply Real.exp_lt_exp.mpr
    have := mul_lt_mul_of_pos_left ha12 hlam
    unfold _DECAY_LAMBDA
    nlinarith

/-- C5 witness: the decay curve at concrete ages 0 and 30 days. -/
theorem temporal_decay_spec_witness :
    temporal_decay 0 0 = 1
    ∧ temporal_decay 0 (-(30 * 86400)) = 1 / 2
    ∧ temporal_decay 0 (-(30 * 86400)) < temporal_decay 0 0 :=
  ⟨(temporal_decay_spec 0 0 0 0).2.1 rfl,
    (temporal_decay_spec 0 (-(30 * 86400)) 0 0).2.2.2.2.1 (by norm_num),
    (temporal_decay_spec 0 0 (-(30 * 86400)) 0).2.2.2.2.2.2
      (by norm_num) (by norm_num)⟩

/-! The argmax scan of `mmr_rerank`: invariant and first-seen tie-break. -/

/-- Invariant of the `enumerate(candidates)` scan: either no element beats
the incumbent score `bs` (the state is returned unchanged and everything
scanned is `≤ bs`), or the result points at offset `i + j` where `j` is the
first position whose score is the maximum of the scanned elements, that
maximum beats `bs`, and every earlier position scores strictly less. -/
lemma scanBest_spec {α : Type} (f : α → ℚ) (d : α) :
    ∀ (l : List α) (i bi : ℕ) (bs : ℚ),
      ((scanBest f l i bi bs).1 = bi ∧ (scanBest f l i bi bs).2 = bs
        ∧ ∀ x ∈ l, f x ≤ bs)
      ∨ (∃ j, j < l.length
          ∧ (scanBest f l i bi bs).1 = i + j
          ∧ (scanBest f l i bi bs).2 = f (l.getD j d)
          ∧ bs < f (l.getD j d)
          ∧ (∀ x ∈ l, f x ≤ f (l.getD j d))
          ∧ ∀ k, k < j → f (l.getD k d) < f (l.getD j d)) := by
  intro l
  induction l with
  | nil =>
      intro i bi bs
      left
      exact ⟨rfl, rfl, by simp⟩
  | cons c rest ih =>
      intro i bi bs
      by_cases h : bs < f c
      · rcases ih (i + 1) i (f c) with ⟨h1, h2, h3⟩ | ⟨j, hj, h1, h2, h3, h4, h5⟩
        · right
          refine ⟨0, by simp, ?_, ?_, ?_, ?_, ?_⟩
          · simpa [scanBest, h] using h1
          · simpa [scanBest, h] using h2
          · simpa using h
          · intro x hx
            rcases List.mem_cons.mp hx with rfl | hx
            · simp
            · simpa using h3 x hx
          · intro k hk
            omega
        · right
          refine ⟨j + 1, by simpa using Nat.succ_lt_succ hj, ?_, ?_, ?_, ?_, ?_⟩
          · have hs : (scanBest f (c :: rest) i bi bs).1 = i + 1 + j := by
              simpa [scanBest, h] using h1
            omega
          · simpa [scanBest, h] using h2
          · simpa using lt_trans h h3
          · intro x hx
            rcases List.mem_cons.mp hx with rfl | hx
            · simpa using le_of_lt h3
            · simpa using h4 x hx
          · intro k hk
            cases k with
            | zero => simpa using h3
            | succ k' => simpa using h5 k' (by omega)
      · rcases ih (i + 1) bi bs with ⟨h1, h2, h3⟩ | ⟨j, hj, h1, h2, h3, h4, h5⟩
        · left
          refine ⟨by simpa [scanBest, h] using h1,
            by simpa [scanBest, h] using h2, ?_⟩
          intro x hx
          rcases List.mem_cons.mp hx with rfl | hx
          · exact not_lt.mp h
          · exact h3 x hx
        · right
          refine ⟨j + 1, by simpa using Nat.succ_lt_succ hj, ?_, ?_, ?_, ?_, ?_⟩
          · have hs : (scanBest f (c :: rest) i bi bs).1 = i + 1 + j := by
              simpa [scanBest, h] using h1
            omega
          · simpa [scanBest, h] using h2
          · simpa using h3
          · intro x hx
            rcases List.mem_cons.mp hx with rfl | hx
            · simpa using le_of_lt (lt_of_le_of_lt (not_lt.mp h) h3)
            · simpa using h4 x hx
          · intro k hk
            cases k with
            | zero => simpa using lt_of_le_of_lt (not_lt.mp h) h3
            | succ k' => simpa using h5 k' (by omega)

/-- `best_idx` is in range, scores at least every candidate, and every
strictly earlier candidate scores strictly less — i.e. it is the first-seen
maximiser. -/
lemma bestIndex_spec {α : Type} (f : α → ℚ) (c : α) (cs : List α) :
    bestIndex f (c :: cs) < (c :: cs).length
    ∧ (∀ x ∈ c :: cs, f x ≤ f ((c :: cs).getD (bestIndex f (c :: cs)) c))
    ∧ ∀ k, k < bestIndex f (c :: cs) →
        f ((c :: cs).getD k c) < f ((c :: cs).getD (bestIndex f (c :: cs)) c)
    := by
  rcases scanBest_spec f c cs 1 0 (f c)
    with ⟨h1, h2, h3⟩ | ⟨j, hj, h1, h2, h3, h4, h5⟩
  · have hb : bestIndex f (c :: cs) = 0 := h1
    rw [hb]
    refine ⟨by simp, ?_, by omega⟩
    intro x hx
    rcases List.mem_cons.mp hx with rfl | hx
    · simp
    · simpa using h3 x hx
  · have hb : bestIndex f (c :: cs) = j + 1 := by
      show (scanBest f cs 1 0 (f c)).1 = j + 1
      omega
    rw [hb]
    refine ⟨by simpa using Nat.succ_lt_succ hj, ?_, ?_⟩
    · intro x hx
      rcases List.mem_cons.mp hx with rfl | hx
      · simpa using le_of_lt h3
      · simpa using h4 x hx
    · intro k hk
      cases k with
      | zero => simpa using h3
      | succ k' => simpa using h5 k' (by omega)

/-- With `lambda_mmr = 1` the diversity term has coefficient `0`, so the MMR
score of a candidate is its bare relevance score, whatever was selected. -/
lemma mmrScore_lambda_one (fsqrt : ℚ → ℚ) (selEmbs : List (List ℚ))
    (c : MemRec) : mmrScore fsqrt 1 selEmbs c = c.relevance_score := by
  unfold mmrScore
  ring

/-- With `lambda_mmr = 1` the whole selection loop coincides with the
pure-relevance loop, regardless of embeddings. -/
lemma mmrLoop_lambda_one (fsqrt : ℚ → ℚ) :
    ∀ (fuel : ℕ) (cands : List MemRec) (selEmbs : List (List ℚ)),
      mmrLoop fsqrt 1 fuel cands selEmbs = relevanceLoop fuel cands := by
  intro fuel
  induction fuel with
  | zero => intro cands selEmbs; rfl
  | succ n ih =>
      intro cands selEmbs
      cases cands with
      | nil => rfl
      | cons c cs =>
          have hf : mmrScore fsqrt 1 selEmbs
              = fun r : MemRec => r.relevance_score :=
            funext (mmrScore_lambda_one fsqrt selEmbs)
          simp only [mmrLoop, relevanceLoop, hf]
          rw [ih]

/-- C2: at every iteration of the MMR loop, the candidate moved from the
remaining pool into the selection maximises
`lambda * relevance_score - (1 - lambda) * max_sim` over the pool, and every
candidate strictly earlier in the pool scores strictly less (first-seen
tie-break); consequently, with `lambda = 1` the loop equals the
pure-relevance loop, regardless of embedding geometry. -/
theorem mmr_select_step (fsqrt : ℚ → ℚ) (lam : ℚ) (selEmbs : List (List ℚ))
    (fuel : ℕ) (c : MemRec) (cs : List MemRec) (bi : ℕ) (chosen : MemRec)
    (hbi : bi = bestIndex (mmrScore fsqrt lam selEmbs) (c :: cs))
    (hch : chosen = (c :: cs).getD bi c) :
    (∀ x ∈ c :: cs,
      mmrScore fsqrt lam selEmbs x ≤ mmrScore fsqrt lam selEmbs chosen)
    ∧ (∀ k, k < bi →
        mmrScore fsqrt lam selEmbs ((c :: cs).getD k c)
          < mmrScore fsqrt lam selEmbs chosen)
    ∧ mmrLoop fsqrt lam (fuel + 1) (c :: cs) selEmbs
        = chosen :: mmrLoop fsqrt lam fuel ((c :: cs).eraseIdx bi)
            (selEmbs ++ [chosen.embedding.getD []])
    ∧ (lam = 1 → mmrLoop fsqrt lam (fuel + 1) (c :: cs) selEmbs
        = relevanceLoop (fuel + 1) (c :: cs)) := by
  subst hbi
  subst hch
  obtain ⟨h1, h2, h3⟩ := bestIndex_spec (mmrScore fsqrt lam selEmbs) c cs
  refine ⟨h2, h3, rfl, ?_⟩
  intro h
  subst h
  exact mmrLoop_lambda_one fsqrt (fuel + 1) (c :: cs) selEmbs

/-- C2 witness: a concrete one-candidate pool with `lambda = 1`. -/
theorem mmr_select_step_witness :
    (∀ x ∈ [(⟨none, none, 0, none, 1, some [1]⟩ : MemRec)],
      mmrScore (fun q => q) 1 [] x
        ≤ mmrScore (fun q => q) 1 []
            (⟨none, none, 0, none, 1, some [1]⟩ : MemRec))
    ∧ (∀ k, k < 0 →
        mmrScore (fun q => q) 1 []
            ([(⟨none, none, 0, none, 1, some [1]⟩ : MemRec)].getD k
              (⟨none, none, 0, none, 1, some [1]⟩ : MemRec))
          < mmrScore (fun q => q) 1 []
              (⟨none, none, 0, none, 1, some [1]⟩ : MemRec))
    ∧ mmrLoop (fun q => q) 1 (0 + 1)
          [(⟨none, none, 0, none, 1, some [1]⟩ : MemRec)] []
        = (⟨none, none, 0, none, 1, some [1]⟩ : MemRec)
            :: mmrLoop (fun q => q) 1 0
              ([(⟨none, none, 0, none, 1, some [1]⟩ : MemRec)].eraseIdx 0)
              ([] ++ [(Option.some [1]).getD []])
    ∧ ((1 : ℚ) = 1 → mmrLoop (fun q => q) 1 (0 + 1)
          [(⟨none, none, 0, none, 1, some [1]⟩ : MemRec)] []
        = relevanceLoop (0 + 1)
            [(⟨none, none, 0, none, 1, some [1]⟩ : MemRec)]) :=
  mmr_select_step (fun q => q) 1 [] 0
    (⟨none, none, 0, none, 1, some [1]⟩ : MemRec) [] 0
    (⟨none, none, 0, none, 1, some [1]⟩ : MemRec) rfl rfl

/-! Permutation and length facts about the selection loop and
`mmr_rerank`. -/

/-- Popping index `i` and re-prepending the popped element permutes the
list. -/
lemma getD_cons_eraseIdx_perm {α : Type} :
    ∀ (l : List α) (i : ℕ) (d : α), i < l.length →
      List.Perm (l.getD i d :: l.eraseIdx i) l := by
  intro l
  induction l with
  | nil => intro i d h; simp at h
  | cons a t ih =>
      intro i d h
      cases i with
      | zero => simp
      | succ i =>
          have hi : i < t.length := by simpa using h
          calc t.getD i d :: (a :: t).eraseIdx (i + 1)
              = t.getD i d :: a :: t.eraseIdx i := by simp
            _ ~ a :: t.getD i d :: t.eraseIdx i :=
                List.Perm.swap a (t.getD i d) _
            _ ~ a :: t := (ih i d hi).cons a

/-- Everything the MMR loop selects comes from the candidate pool, each
pool entry used at most once. -/
lemma mmrLoop_subperm (fsqrt : ℚ → ℚ) (lam : ℚ) :
    ∀ (fuel : ℕ) (cands : List MemRec) (selEmbs : List (List ℚ)),
      List.Subperm (mmrLoop fsqrt lam fuel cands selEmbs) cands := by
  intro fuel
  induction fuel with
  | zero => intro cands selEmbs; exact List.nil_subperm
  | succ n ih =>
      intro cands selEmbs
      cases cands with
      | nil => exact List.nil_subperm
      | cons c cs =>
          have hbi := (bestIndex_spec (mmrScore fsqrt lam selEmbs) c cs).1
          obtain ⟨w, hwp, hws⟩ :=
            ih ((c :: cs).eraseIdx (bestIndex (mmrScore fsqrt lam selEmbs)
              (c :: cs))) (selEmbs ++ [((c :: cs).getD (bestIndex
                (mmrScore fsqrt lam selEmbs) (c :: cs)) c).embedding.getD []])
          refine List.Subperm.trans ⟨_ :: w, hwp.cons _, hws.cons₂ _⟩ ?_
          exact (getD_cons_eraseIdx_perm (c :: cs) _ c hbi).subperm

/-- The loop returns exactly `min fuel |pool|` records. -/
lemma mmrLoop_length (fsqrt : ℚ → ℚ) (lam : ℚ) :
    ∀ (fuel : ℕ) (cands : List MemRec) (selEmbs : List (List ℚ)),
      (mmrLoop fsqrt lam fuel cands selEmbs).length
        = min fuel cands.length := by
  intro fuel
  induction fuel with
  | zero => intro cands selEmbs; simp [mmrLoop]
  | succ n ih =>
      intro cands selEmbs
      cases cands with
      | nil => simp [mmrLoop]
      | cons c cs =>
          have hbi := (bestIndex_spec (mmrScore fsqrt lam selEmbs) c cs).1
          have herase : ((c :: cs).eraseIdx (bestIndex
              (mmrScore fsqrt lam selEmbs) (c :: cs))).length = cs.length :=
            by
              rw [List.length_eraseIdx_of_lt hbi]
              simp
          simp only [mmrLoop, List.length_cons, ih, herase]
          omega

/-- When the pool fits inside the fuel, the loop selects the whole pool (in
some order). -/
lemma mmrLoop_perm_all (fsqrt : ℚ → ℚ) (lam : ℚ) (fuel : ℕ)
    (cands : List MemRec) (selEmbs : List (List ℚ))
    (h : cands.length ≤ fuel) :
    List.Perm (mmrLoop fsqrt lam fuel cands selEmbs) cands := by
  obtain ⟨w, hwp, hws⟩ := mmrLoop_subperm fsqrt lam fuel cands selEmbs
  have hl : w.length = cands.length := by
    rw [hwp.length_eq, mmrLoop_length]
    omega
  have hw : w = cands := hws.eq_of_length hl
  subst hw
  exact hwp.symm

/-- `mmr_rerank` always returns exactly `min top_n |input|` records. -/
lemma mmr_rerank_length (fsqrt : ℚ → ℚ) (lam : ℚ) (results : List MemRec)
    (top_n : ℕ) :
    (mmr_rerank fsqrt results top_n lam).length = min top_n results.length
    := by
  unfold mmr_rerank
  by_cases hres : results.isEmpty
  · rw [List.isEmpty_iff] at hres
    simp [hres]
  · by_cases hcand : (results.filter (fun r => r.embedding.isSome)).isEmpty
    · simp [hres, hcand, List.length_take]
    · rw [List.isEmpty_iff] at hcand
      have hpart : (results.filter (fun r => r.embedding.isSome)).length
          + (results.filter (fun r => !r.embedding.isSome)).length
          = results.length := by
        have := (List.filter_append_perm
          (fun r => r.embedding.isSome) results).length_eq
        simpa using this
      have hsel := mmrLoop_length fsqrt lam top_n
        (results.filter (fun r => r.embedding.isSome)) []
      have hone : 1 ≤ (results.filter (fun r => r.embedding.isSome)).length
        := by
          rcases List.exists_mem_of_ne_nil _ hcand with ⟨x, _⟩
          have := List.length_pos.mpr hcand
          omega
      simp only [hres, hcand, if_neg, Bool.false_eq_true, not_false_iff,
        List.length_append, List.length_take, hsel]
      rw [if_neg (by simpa [List.isEmpty_iff] using hcand)]
      simp only [List.length_append, List.length_take, hsel]
      omega

/-- Unfolding of `mmr_rerank` with the local bindings expanded. -/
lemma mmr_rerank_eq (fsqrt : ℚ → ℚ) (lam : ℚ) (results : List MemRec)
    (top_n : ℕ) :
    mmr_rerank fsqrt results top_n lam
      = if results.isEmpty then []
        else if (results.filter (fun r => r.embedding.isSome)).isEmpty
          then results.take top_n
          else mmrLoop fsqrt lam top_n
              (results.filter (fun r => r.embedding.isSome)) []
            ++ (results.filter (fun r => !r.embedding.isSome)).take
              (top_n - (mmrLoop fsqrt lam top_n
                (results.filter (fun r => r.embedding.isSome)) []).length)
    := rfl

/-- C7: if no candidate carries an embedding, `mmr_rerank` returns the first
`top_n` of the original list unchanged; if the embedding-bearing pool is
non-empty but smaller than `top_n`, the output is the MMR-selected pool (a
permutation of the whole pool) padded with the leading no-embedding records
in their original relative order; and the output never exceeds `top_n`
records. -/
theorem mmr_rerank_fallback (fsqrt : ℚ → ℚ) (lam : ℚ)
    (results : List MemRec) (top_n : ℕ) (hne : results ≠ [])
    (_htop : 1 ≤ top_n) :
    ((∀ r ∈ results, r.embedding = none) →
      mmr_rerank fsqrt results top_n lam = results.take top_n)
    ∧ ((results.filter (fun r => r.embedding.isSome)) ≠ [] →
        (results.filter (fun r => r.embedding.isSome)).length < top_n →
        ∃ sel, List.Perm sel (results.filter (fun r => r.embedding.isSome))
          ∧ mmr_rerank fsqrt results top_n lam
              = sel ++ (results.filter (fun r => !r.embedding.isSome)).take
                  (top_n - (results.filter
                    (fun r => r.embedding.isSome)).length))
    ∧ (mmr_rerank fsqrt results top_n lam).length ≤ top_n := by
  refine ⟨?_, ?_, ?_⟩
  · intro hall
    have hfil : results.filter (fun r => r.embedding.isSome) = [] := by
      rw [List.filter_eq_nil_iff]
      intro a ha
      simp [hall a ha]
    rw [mmr_rerank_eq, if_neg (by simpa [List.isEmpty_iff] using hne),
      if_pos (by simp [hfil])]
  · intro hfne hlen
    rw [mmr_rerank_eq, if_neg (by simpa [List.isEmpty_iff] using hne),
      if_neg (by simpa [List.isEmpty_iff] using hfne)]
    refine ⟨mmrLoop fsqrt lam top_n
        (results.filter (fun r => r.embedding.isSome)) [],
      mmrLoop_perm_all fsqrt lam top_n _ [] (le_of_lt hlen), ?_⟩
    have hsl : (mmrLoop fsqrt lam top_n
        (results.filter (fun r => r.embedding.isSome)) []).length
        = (results.filter (fun r => r.embedding.isSome)).length := by
      rw [mmrLoop_length]
      omega
    rw [hsl]
  · rw [mmr_rerank_length]
    omega

/-- C7 witness: one record with an embedding, one without, `top_n = 3`. -/
theorem mmr_rerank_fallback_witness :
    ([(⟨none, none, 0, none, 1, some [1]⟩ : MemRec),
        ⟨none, none, 0, none, 2, none⟩] ≠ [])
    ∧ 1 ≤ 3
    ∧ (((∀ r ∈ [(⟨none, none, 0, none, 1, some [1]⟩ : MemRec),
            ⟨none, none, 0, none, 2, none⟩], r.embedding = none) →
        mmr_rerank (fun q => q)
            [⟨none, none, 0, none, 1, some [1]⟩,
              ⟨none, none, 0, none, 2, none⟩] 3 0.7
          = [(⟨none, none, 0, none, 1, some [1]⟩ : MemRec),
              ⟨none, none, 0, none, 2, none⟩].take 3)
      ∧ (([(⟨none, none, 0, none, 1, some [1]⟩ : MemRec),
            ⟨none, none, 0, none, 2, none⟩].filter
            (fun r => r.embedding.isSome)) ≠ [] →
          ([(⟨none, none, 0, none, 1, some [1]⟩ : MemRec),
            ⟨none, none, 0, none, 2, none⟩].filter
            (fun r => r.embedding.isSome)).length < 3 →
          ∃ sel, List.Perm sel
              ([(⟨none, none, 0, none, 1, some [1]⟩ : MemRec),
                ⟨none, none, 0, none, 2, none⟩].filter
                (fun r => r.embedding.isSome))
            ∧ mmr_rerank (fun q => q)
                [⟨none, none, 0, none, 1, some [1]⟩,
                  ⟨none, none, 0, none, 2, none⟩] 3 0.7
                = sel ++ ([(⟨none, none, 0, none, 1, some [1]⟩ : MemRec),
                    ⟨none, none, 0, none, 2, none⟩].filter
                    (fun r => !r.embedding.isSome)).take
                    (3 - ([(⟨none, none, 0, none, 1, some [1]⟩ : MemRec),
                      ⟨none, none, 0, none, 2, none⟩].filter
                      (fun r => r.embedding.isSome)).length))
      ∧ (mmr_rerank (fun q => q)
          [⟨none, none, 0, none, 1, some [1]⟩,
            ⟨none, none, 0, none, 2, none⟩] 3 0.7).length ≤ 3) :=
  ⟨by simp, by decide,
    mmr_rerank_fallback (fun q => q) 0.7
      [⟨none, none, 0, none, 1, some [1]⟩, ⟨none, none, 0, none, 2, none⟩]
      3 (by simp) (by decide)⟩

/-- C9: for every input and `top_n ≥ 1`, the output of `mmr_rerank` is a
duplicate-free selection from the input (a sub-permutation: every output
record is an input record, used at most once) of length exactly
`min top_n |input|`. -/
theorem mmr_rerank_selection (fsqrt : ℚ → ℚ) (lam : ℚ)
    (results : List MemRec) (top_n : ℕ) (_htop : 1 ≤ top_n) :
    List.Subperm (mmr_rerank fsqrt results top_n lam) results
    ∧ (mmr_rerank fsqrt results top_n lam).length
        = min top_n results.length := by
  refine ⟨?_, mmr_rerank_length fsqrt lam results top_n⟩
  rw [mmr_rerank_eq]
  by_cases hres : results.isEmpty
  · rw [if_pos hres]
    exact List.nil_subperm
  · rw [if_neg hres]
    by_cases hcand : (results.filter (fun r => r.embedding.isSome)).isEmpty
    · rw [if_pos hcand]
      exact (List.take_sublist _ _).subperm
    · rw [if_neg hcand]
      have h1 := mmrLoop_subperm fsqrt lam top_n
        (results.filter (fun r => r.embedding.isSome)) []
      have h2 : List.Subperm
          ((results.filter (fun r => !r.embedding.isSome)).take
            (top_n - (mmrLoop fsqrt lam top_n
              (results.filter (fun r => r.embedding.isSome)) []).length))
          (results.filter (fun r => !r.embedding.isSome)) :=
        (List.take_sublist _ _).subperm
      have h3 := ((List.subperm_append_right
          ((results.filter (fun r => !r.embedding.isSome)).take
            (top_n - (mmrLoop fsqrt lam top_n
              (results.filter (fun r => r.embedding.isSome)) []).length))).mpr
          h1).trans
        ((List.subperm_append_left
          (results.filter (fun r => r.embedding.isSome))).mpr h2)
      exact h3.trans
        (List.filter_append_perm (fun r => r.embedding.isSome)
          results).subperm

/-- C9 witness: a concrete two-record input with `top_n = 1`. -/
theorem mmr_rerank_selection_witness :
    1 ≤ 1
    ∧ (List.Subperm (mmr_rerank (fun q => q)
          [(⟨none, none, 0, none, 1, some [1]⟩ : MemRec),
            ⟨none, none, 0, none, 2, some [0, 1]⟩] 1 0.7)
        [(⟨none, none, 0, none, 1, some [1]⟩ : MemRec),
          ⟨none, none, 0, none, 2, some [0, 1]⟩]
      ∧ (mmr_rerank (fun q => q)
          [(⟨none, none, 0, none, 1, some [1]⟩ : MemRec),
            ⟨none, none, 0, none, 2, some [0, 1]⟩] 1 0.7).length
        = min 1 [(⟨none, none, 0, none, 1, some [1]⟩ : MemRec),
            ⟨none, none, 0, none, 2, some [0, 1]⟩].length) :=
  ⟨by decide, mmr_rerank_selection (fun q => q) 0.7
    [⟨none, none, 0, none, 1, some [1]⟩, ⟨none, none, 0, none, 2, some [0, 1]⟩]
    1 (by decide)⟩

/-- C8: the cosine helper is total: it returns `0` for embeddings of unequal
length, returns `0` when either embedding has zero magnitude (zero sum of
squares — `math.sqrt` maps `0` to `0`), and in every case either returns `0`
or both norms are non-zero and the result is the guarded quotient, so the
division is reachable only with non-zero norms. -/
theorem cosine_similarity_total (fsqrt : ℚ → ℚ) (hz : fsqrt 0 = 0)
    (a b : List ℚ) :
    (a.length ≠ b.length → _cosine_similarity fsqrt a b = 0)
    ∧ ((a.map (fun x => x * x)).sum = 0 → _cosine_similarity fsqrt a b = 0)
    ∧ ((b.map (fun x => x * x)).sum = 0 → _cosine_similarity fsqrt a b = 0)
    ∧ (_cosine_similarity fsqrt a b = 0
        ∨ (fsqrt (a.map (fun x => x * x)).sum ≠ 0
            ∧ fsqrt (b.map (fun x => x * x)).sum ≠ 0
            ∧ _cosine_similarity fsqrt a b
                = (List.zipWith (· * ·) a b).sum
                  / (fsqrt (a.map (fun x => x * x)).sum
                      * fsqrt (b.map (fun x => x * x)).sum))) := by
  refine ⟨?_, ?_, ?_, ?_⟩
  · intro h
    simp [_cosine_similarity, h]
  · intro hsum
    by_cases hlen : a.length ≠ b.length <;>
      simp [_cosine_similarity, hlen, hsum, hz]
  · intro hsum
    by_cases hlen : a.length ≠ b.length <;>
      simp [_cosine_similarity, hlen, hsum, hz]
  · by_cases hlen : a.length ≠ b.length
    · left
      simp [_cosine_similarity, hlen]
    · by_cases hz2 : fsqrt (a.map (fun x => x * x)).sum = 0
        ∨ fsqrt (b.map (fun x => x * x)).sum = 0
      · left
        simp only [_cosine_similarity, if_neg hlen]
        simp [hz2]
      · right
        push_neg at hz2
        refine ⟨hz2.1, hz2.2, ?_⟩
        simp only [_cosine_similarity, if_neg hlen]
        simp [hz2.1, hz2.2]

/-- C8 witness: equal-length embeddings, the second of zero magnitude, under
the identity as the abstract square root (which does map `0` to `0`). -/
theorem cosine_similarity_total_witness :
    (fun q : ℚ => q) 0 = 0
    ∧ (([(1 : ℚ), 2].length ≠ [(0 : ℚ), 0].length →
        _cosine_similarity (fun q => q) [1, 2] [0, 0] = 0)
      ∧ (([(1 : ℚ), 2].map (fun x => x * x)).sum = 0 →
        _cosine_similarity (fun q => q) [1, 2] [0, 0] = 0)
      ∧ (([(0 : ℚ), 0].map (fun x => x * x)).sum = 0 →
        _cosine_similarity (fun q => q) [1, 2] [0, 0] = 0)
      ∧ (_cosine_similarity (fun q => q) [1, 2] [0, 0] = 0
          ∨ ((fun q : ℚ => q) (([(1 : ℚ), 2].map (fun x => x * x)).sum) ≠ 0
              ∧ (fun q : ℚ => q) (([(0 : ℚ), 0].map (fun x => x * x)).sum) ≠ 0
              ∧ _cosine_similarity (fun q => q) [1, 2] [0, 0]
                  = (List.zipWith (· * ·) [(1 : ℚ), 2] [(0 : ℚ), 0]).sum
                    / ((fun q : ℚ => q) (([(1 : ℚ), 2].map
                        (fun x => x * x)).sum)
                      * (fun q : ℚ => q) (([(0 : ℚ), 0].map
                        (fun x => x * x)).sum))))) :=
  ⟨rfl, cosine_similarity_total (fun q => q) rfl [1, 2] [0, 0]⟩

end Coda
